import Mathlib

/-!
Shallow embedding of the deterministic exercise-validation and scoring core
of the English-learning application: the seeded RNG (mulberry32), the string
seed deriver, the Fisher-Yates shuffler with identity-permutation guard, the
tokenizer and spacing joiner, the token comparator, the content validator and
the legacy fill-blank converter.

JS strings are modelled as `List Char`, JS numbers holding 32-bit integer
bit patterns as `Nat` with explicit `% 2^32`, signed 32-bit values as `Int`
reduced into the signed range, and the RNG closure state by explicit state
passing.
-/

namespace EnglishCore

/-- The character class of the JS regular expression whitespace class,
restricted to the ASCII range that the application's inputs use. -/
def isJsSpace (c : Char) : Bool :=
  c = ' ' || c = '\t' || c = '\n' || c = '\r' || c = '\x0b' || c = '\x0c'

/-- The tokenizer punctuation class, from the regex character set of
periods, commas, exclamation and question marks, semicolons and colons. -/
def isPunctChar (c : Char) : Bool :=
  c = '.' || c = ',' || c = '!' || c = '?' || c = ';' || c = ':'

/-- A letter or digit, the word characters admitted by the restricted
sentence alphabet of the round-trip property. -/
def isWordChar (c : Char) : Bool :=
  c.isAlpha || c.isDigit

/-- A character of the restricted sentence alphabet: letters, digits,
spaces and the supported punctuation set. -/
def allowedChar (c : Char) : Bool :=
  isWordChar c || c = ' ' || isPunctChar c

/-! ### Seeded RNG (mulberry32), from createSeededRandom -/

/-- 2 to the 32nd, the modulus of all 32-bit JS bit operations. -/
def U32 : Nat := 4294967296

/-- The bit pattern of ToInt32/ToUint32 applied to an integer. -/
def toU32 (x : Int) : Nat := (x % (U32 : Int)).toNat

/-- ToInt32: reduce an integer into the signed 32-bit range. -/
def toInt32 (x : Int) : Int :=
  let m := x % (U32 : Int)
  if m < 2147483648 then m else m - (U32 : Int)

/-- One invocation of the mulberry32 generator: returns the updated closure
state and the 32-bit output numerator.  Mirrors the body of the closure in
createSeededRandom, with each JS 32-bit operation made explicit mod 2^32. -/
def mulberry32Round (s : Nat) : Nat × Nat :=
  let s' := (s + 0x6d2b79f5) % U32
  let t1 := ((s' ^^^ (s' >>> 15)) * (1 ||| s')) % U32
  let t2 := (((t1 + ((t1 ^^^ (t1 >>> 7)) * (61 ||| t1)) % U32) % U32) ^^^ t1) % U32
  (s', (t2 ^^^ (t2 >>> 14)) % U32)

/-- The closure state of createSeededRandom after n invocations. -/
def mb32State (seed : Int) : Nat → Nat
  | 0 => toU32 seed
  | n + 1 => (mulberry32Round (mb32State seed n)).1

/-- The 32-bit numerator produced by invocation n (0-indexed) of the
generator created by createSeededRandom. -/
def createSeededRandomNum (seed : Int) (n : Nat) : Nat :=
  (mulberry32Round (mb32State seed n)).2

/-- The value returned by invocation n (0-indexed) of the generator created
by createSeededRandom: the 32-bit numerator divided by 2^32. -/
def createSeededRandomNth (seed : Int) (n : Nat) : ℚ :=
  (createSeededRandomNum seed n : ℚ) / 4294967296

/-! ### Seed derivation from strings, from generateSeed -/

/-- The digit character of a single decimal digit. -/
def digitCh (d : Nat) : Char := Char.ofNat (48 + d)

/-- Decimal rendering core, with structural fuel bounding the recursion
depth (n + 1 is always enough fuel). -/
def natToCharsFuel : Nat → Nat → List Char
  | _, 0 => []
  | n, fuel + 1 =>
    if n < 10 then [digitCh n]
    else natToCharsFuel (n / 10) fuel ++ [digitCh (n % 10)]

/-- Decimal rendering of a natural number, as JS template interpolation
of a number produces. -/
def natToChars (n : Nat) : List Char := natToCharsFuel n (n + 1)

/-- One step of the rolling string hash of generateSeed:
hash = ((hash << 5) - hash) + charCode, coerced back to signed 32 bits. -/
def hashStep (h : Int) (c : Nat) : Int :=
  toInt32 (toInt32 (h * 32) - h + (c : Int))

/-- The rolling hash of generateSeed over a whole string, starting at 0. -/
def hashString (s : List Char) : Int :=
  s.foldl (fun h c => hashStep h c.toNat) 0

/-- generateSeed: concatenates questionId, a dash, and the sessionId, with
sessionId falling back to the wall-clock `Date.now()` value (modelled by the
explicit `now` argument) when it is absent or the empty string (a falsy JS
string), then hashes and takes the absolute value. -/
def generateSeed (questionId : List Char) (sessionId : Option (List Char)) (now : Nat) : Int :=
  let sid : List Char :=
    match sessionId with
    | some s => if s.isEmpty then natToChars now else s
    | none => natToChars now
  ((hashString (questionId ++ '-' :: sid)).natAbs : Int)

/-! ### Fisher-Yates shuffle, from deterministicShuffle -/

/-- Swap the elements at positions i and j, the array destructuring swap of
the shuffle loop.  Out-of-range indices leave the list unchanged (the
algorithm only ever produces in-range indices). -/
def listSwap {α : Type} (l : List α) (i j : Nat) : List α :=
  match l[i]?, l[j]? with
  | some x, some y => (l.set i y).set j x
  | _, _ => l

/-- The shuffle loop of deterministicShuffle, iterating the index i downward
to 1: draw j = floor(random() * (i+1)) and swap positions i and j.  The
division models the exact value floor(num/2^32 * (i+1)). -/
def fyAux {α : Type} : List α → Nat → Nat → List α
  | l, _, 0 => l
  | l, s, i + 1 =>
    let r := mulberry32Round s
    let j := r.2 * (i + 2) / U32
    fyAux (listSwap l (i + 1) j) r.1 i

/-- deterministicShuffle: copy the array and run the seeded Fisher-Yates
loop from the last index down to 1. -/
def deterministicShuffle {α : Type} (array : List α) (seed : Int) : List α :=
  fyAux array (toU32 seed) (array.length - 1)

/-- arraysEqual: length check followed by element-wise strict equality. -/
def arraysEqual {α : Type} [DecidableEq α] (a b : List α) : Bool :=
  if a.length ≠ b.length then false
  else (List.range a.length).all fun i => decide (a.get? i = b.get? i)

/-- The while loop of shuffleWithRecheck, returning the final result and the
final attempt counter: while the result equals the original input and fewer
than maxAttempts attempts were made, reshuffle with the seed incremented by
the attempt count. -/
def shuffleWithRecheckLoop {α : Type} [DecidableEq α] (array : List α) (seed : Int)
    (maxAttempts : Nat) (result : List α) (attempts : Nat) : List α × Nat :=
  if arraysEqual result array = true ∧ attempts < maxAttempts then
    shuffleWithRecheckLoop array seed maxAttempts
      (deterministicShuffle array (seed + attempts)) (attempts + 1)
  else (result, attempts)
  termination_by maxAttempts - attempts
  decreasing_by exact Nat.sub_lt_sub_left (by omega) (Nat.lt_succ_self _)

/-- shuffleWithRecheck: first shuffle with the given seed, then run the
recheck loop starting at attempt 1. -/
def shuffleWithRecheck {α : Type} [DecidableEq α] (array : List α) (seed : Int)
    (maxAttempts : Nat) : List α :=
  (shuffleWithRecheckLoop array seed maxAttempts (deterministicShuffle array seed) 1).1

/-! ### Tokenizer, from parseIntoTokens -/

/-- The character scan of parseIntoTokens with the pending word accumulator
made explicit: whitespace flushes the accumulator, tokenizer punctuation
flushes the accumulator and is emitted as its own token, and every other
character extends the accumulator; the trailing accumulator is flushed. -/
def parseIntoTokensAux : List Char → List Char → List (List Char)
  | [], current => if current.isEmpty then [] else [current]
  | c :: cs, current =>
    if isJsSpace c then
      (if current.isEmpty then [] else [current]) ++ parseIntoTokensAux cs []
    else if isPunctChar c then
      (if current.isEmpty then [] else [current]) ++ [c] :: parseIntoTokensAux cs []
    else
      parseIntoTokensAux cs (current ++ [c])

/-- parseIntoTokens: scan the sentence with an empty initial accumulator. -/
def parseIntoTokens (sentence : List Char) : List (List Char) :=
  parseIntoTokensAux sentence []

/-! ### Spacing joiner, from joinTokensWithSpacing -/

/-- The apostrophe character. -/
def apostrophe : Char := Char.ofNat 39

/-- The double-quote character. -/
def dquote : Char := Char.ofNat 34

/-- PUNCTUATION_NO_SPACE_BEFORE. -/
def noSpaceBeforeList : List (List Char) :=
  [['.'], [','], ['?'], ['!'], [':'], [';'], [apostrophe], [dquote], [')']]

/-- PUNCTUATION_NO_SPACE_AFTER. -/
def noSpaceAfterList : List (List Char) :=
  [['('], [dquote], [apostrophe]]

/-- Whether a token starts with an apostrophe (contraction handling). -/
def startsWithApostrophe : List Char → Bool
  | [] => false
  | c :: _ => c = apostrophe

/-- The join loop over tokens after the first, carrying the previous token:
a token is attached without a space when no space is allowed before it (or
it starts with an apostrophe) or no space is allowed after the previous
token; otherwise a single space is inserted. -/
def joinAux : List Char → List (List Char) → List Char
  | _, [] => []
  | prev, cur :: rest =>
    let noSpaceBefore := cur ∈ noSpaceBeforeList || startsWithApostrophe cur
    let noSpaceAfter := prev ∈ noSpaceAfterList
    (if noSpaceBefore || noSpaceAfter then cur else ' ' :: cur) ++ joinAux cur rest

/-- joinTokensWithSpacing: the first token verbatim, then the join loop. -/
def joinTokensWithSpacing : List (List Char) → List Char
  | [] => []
  | t :: rest => t ++ joinAux t rest

/-! ### Token comparator, from compareTokenArrays -/

/-- Lowercase a token, modelling toLowerCase. -/
def lowerTok (t : List Char) : List Char := t.map Char.toLower

/-- The per-index normalization of compareTokenArrays: a missing token is
the empty string, and case is folded unless caseSensitive. -/
def normTokAt (tokens : List (List Char)) (caseSensitive : Bool) (i : Nat) : List Char :=
  let t := (tokens.get? i).getD []
  if caseSensitive then t else lowerTok t

/-- compareTokenArrays: walk indices 0 .. max(len,len)-1 recording every
position where the normalized tokens differ; correct iff no differences and
equal lengths. -/
def compareTokenArrays (userTokens correctTokens : List (List Char)) (caseSensitive : Bool) :
    Bool × List Nat :=
  let maxLen := max userTokens.length correctTokens.length
  let differences := (List.range maxLen).filter fun i =>
    decide (normTokAt userTokens caseSensitive i ≠ normTokAt correctTokens caseSensitive i)
  (decide (differences.length = 0) && decide (userTokens.length = correctTokens.length),
   differences)

/-! ### Content validator data model -/

/-- Validation severities. -/
inductive Severity : Type
  | error : Severity
  | warning : Severity
deriving DecidableEq

/-- A validation finding: field name, message, severity. -/
structure ValidationError : Type where
  field : List Char
  message : List Char
  severity : Severity
deriving DecidableEq

/-- An arrange_words question (the fields the validator reads). -/
structure ArrangeWordsQuestion : Type where
  id : List Char
  display_tokens : List (List Char)
  correct_tokens : List (List Char)
  word_bank_tokens : List (List Char)
  correct_answer_string : List Char
  translation : Option (List Char)

/-- A fill_blanks question (the fields the validator reads). -/
structure FillBlanksQuestion : Type where
  id : List Char
  sentence_template : List Char
  blanks : List Nat
  display_tokens : List (List Char)
  correct_tokens : List (List Char)
  word_bank_tokens : List (List Char)
  correct_answer_string : List Char
  explanation_vi : Option (List Char)
  clueEmoji : Option (List Char)

/-! ### Token multiset integrity, from validateTokenIntegrity -/

/-- Case-insensitive count of a lowercase key among a token list, the count
stored by the Map-building passes of validateTokenIntegrity. -/
def lcCount (tokens : List (List Char)) (key : List Char) : Nat :=
  tokens.countP fun t => decide (lowerTok t = key)

/-- Insert a key into an insertion-ordered key list if not yet present,
modelling Map key insertion order. -/
def insertKey (acc : List (List Char)) (k : List Char) : List (List Char) :=
  if k ∈ acc then acc else acc ++ [k]

/-- The keys of the Map built from a token list, lowercased, in first
insertion order. -/
def mapKeys (tokens : List (List Char)) : List (List Char) :=
  (tokens.map lowerTok).foldl insertKey []

/-- The message of a token-integrity shortfall finding. -/
def integrityMsg (key : List Char) (count available : Nat) : List Char :=
  ("Token ".data ++ [dquote]) ++ key ++
    ([dquote] ++ " required ".data) ++ natToChars count ++
    "x but only ".data ++ natToChars available ++ "x in word bank".data

/-- A token-integrity shortfall finding. -/
def integrityError (key : List Char) (count available : Nat) : ValidationError :=
  ⟨"word_bank_tokens".data, integrityMsg key count available, Severity.error⟩

/-- validateTokenIntegrity: for each distinct lowercase key required by the
correct tokens, a blocking error when the word bank holds fewer copies. -/
def validateTokenIntegrity (correctTokens wordBankTokens : List (List Char)) :
    List ValidationError :=
  (mapKeys correctTokens).filterMap fun key =>
    if lcCount wordBankTokens key < lcCount correctTokens key then
      some (integrityError key (lcCount correctTokens key) (lcCount wordBankTokens key))
    else none

/-! ### Joined-answer and grammar checks -/

/-- validateJoinedAnswer: joining the correct tokens must case-insensitively
equal the canonical answer string. -/
def validateJoinedAnswer (correctTokens : List (List Char)) (correctAnswerString : List Char) :
    List ValidationError :=
  let joined := joinTokensWithSpacing correctTokens
  if lowerTok joined ≠ lowerTok correctAnswerString then
    [⟨"correct_answer_string".data,
      ("Joined tokens ".data ++ [dquote]) ++ joined ++
        ([dquote] ++ " doesn't match expected ".data ++ [dquote]) ++
        correctAnswerString ++ [dquote],
      Severity.error⟩]
  else []

/-- Whether the string matches the double-whitespace regex. -/
def hasDoubleSpace : List Char → Bool
  | c :: d :: rest => (isJsSpace c && isJsSpace d) || hasDoubleSpace (d :: rest)
  | _ => false

/-- Whether the string matches the whitespace-before-punctuation regex. -/
def hasSpaceBeforePunct : List Char → Bool
  | c :: d :: rest => (isJsSpace c && isPunctChar d) || hasSpaceBeforePunct (d :: rest)
  | _ => false

/-- Whether the first character differs from its uppercase form. -/
def firstNotCapital : List Char → Bool
  | [] => false
  | c :: _ => decide (c ≠ c.toUpper)

/-- Whether the string fails to end in a period, exclamation or question
mark (for nonempty strings). -/
def lacksFinalPunct (s : List Char) : Bool :=
  match s.getLast? with
  | none => false
  | some c => !(c = '.' || c = '!' || c = '?')

/-- The message of the space-before-punctuation grammar finding. -/
def spaceBeforePunctMsg : List Char := "Space before punctuation detected".data

/-- validateGrammarBasics: double spaces (warning), space before
punctuation (error), missing leading capital (warning), missing final
punctuation (warning). -/
def validateGrammarBasics (sentence : List Char) : List ValidationError :=
  (if hasDoubleSpace sentence then
    [⟨"correct_answer_string".data, "Double spaces detected".data, Severity.warning⟩] else [])
  ++ (if hasSpaceBeforePunct sentence then
    [⟨"correct_answer_string".data, spaceBeforePunctMsg, Severity.error⟩] else [])
  ++ (if firstNotCapital sentence then
    [⟨"correct_answer_string".data, "Sentence should start with capital letter".data,
      Severity.warning⟩] else [])
  ++ (if lacksFinalPunct sentence then
    [⟨"correct_answer_string".data, "Sentence should end with punctuation".data,
      Severity.warning⟩] else [])

/-! ### Question validators -/

/-- The required-field findings of validateArrangeWordsQuestion (a missing
or empty field is falsy in JS). -/
def requiredFieldErrorsAW (q : ArrangeWordsQuestion) : List ValidationError :=
  (if q.id.isEmpty then [⟨"id".data, "Missing id".data, Severity.error⟩] else [])
  ++ (if q.correct_tokens.isEmpty then
    [⟨"correct_tokens".data, "Missing correct_tokens".data, Severity.error⟩] else [])
  ++ (if q.word_bank_tokens.isEmpty then
    [⟨"word_bank_tokens".data, "Missing word_bank_tokens".data, Severity.error⟩] else [])
  ++ (if q.correct_answer_string.isEmpty then
    [⟨"correct_answer_string".data, "Missing correct_answer_string".data, Severity.error⟩]
    else [])

/-- The token-count mismatch finding of validateArrangeWordsQuestion. -/
def countMismatchError (correct bank : Nat) : ValidationError :=
  ⟨"word_bank_tokens".data,
    "Token count mismatch: correct=".data ++ natToChars correct ++
      ", bank=".data ++ natToChars bank,
    Severity.error⟩

/-- validateArrangeWordsQuestion: required fields short-circuit; otherwise
token integrity, joined-answer equality, grammar basics, and exact token
count equality. -/
def validateArrangeWordsQuestion (q : ArrangeWordsQuestion) : List ValidationError :=
  let errors := requiredFieldErrorsAW q
  if errors.any (fun e => decide (e.severity = Severity.error)) then errors
  else
    errors ++ validateTokenIntegrity q.correct_tokens q.word_bank_tokens
      ++ validateJoinedAnswer q.correct_tokens q.correct_answer_string
      ++ validateGrammarBasics q.correct_answer_string
      ++ (if q.correct_tokens.length ≠ q.word_bank_tokens.length then
        [countMismatchError q.correct_tokens.length q.word_bank_tokens.length] else [])

/-- Count of the non-overlapping matches of the global triple-underscore
pattern, scanning left to right. -/
def countBlanks : List Char → Nat
  | '_' :: '_' :: '_' :: rest => 1 + countBlanks rest
  | _ :: rest => countBlanks rest
  | [] => 0

/-- The required-field findings of validateFillBlanksQuestion. -/
def requiredFieldErrorsFB (q : FillBlanksQuestion) : List ValidationError :=
  (if q.id.isEmpty then [⟨"id".data, "Missing id".data, Severity.error⟩] else [])
  ++ (if q.sentence_template.isEmpty then
    [⟨"sentence_template".data, "Missing sentence_template".data, Severity.error⟩] else [])
  ++ (if q.correct_tokens.isEmpty then
    [⟨"correct_tokens".data, "Missing correct_tokens".data, Severity.error⟩] else [])
  ++ (if q.word_bank_tokens.isEmpty then
    [⟨"word_bank_tokens".data, "Missing word_bank_tokens".data, Severity.error⟩] else [])

/-- validateFillBlanksQuestion: required fields short-circuit; otherwise
blank-count equality, token integrity, and grammar basics when a canonical
answer string is present. -/
def validateFillBlanksQuestion (q : FillBlanksQuestion) : List ValidationError :=
  let errors := requiredFieldErrorsFB q
  if errors.any (fun e => decide (e.severity = Severity.error)) then errors
  else
    errors
      ++ (if countBlanks q.sentence_template ≠ q.correct_tokens.length then
        [⟨"blanks".data,
          ("Blank count (".data ++ natToChars (countBlanks q.sentence_template) ++
            ") doesn't match answer token count (".data ++
            natToChars q.correct_tokens.length ++ ")".data),
          Severity.error⟩] else [])
      ++ validateTokenIntegrity q.correct_tokens q.word_bank_tokens
      ++ (if q.correct_answer_string.isEmpty then []
        else validateGrammarBasics q.correct_answer_string)

/-- The tagged union of the two validated question shapes. -/
inductive ValidatedQuestion : Type
  | arrange : ArrangeWordsQuestion → ValidatedQuestion
  | fill : FillBlanksQuestion → ValidatedQuestion

/-- validateQuestion: dispatch on the question type tag. -/
def validateQuestion : ValidatedQuestion → List ValidationError
  | ValidatedQuestion.arrange q => validateArrangeWordsQuestion q
  | ValidatedQuestion.fill q => validateFillBlanksQuestion q

/-- isQuestionValid: no error-severity finding. -/
def isQuestionValid (q : ValidatedQuestion) : Bool :=
  !(validateQuestion q).any fun e => decide (e.severity = Severity.error)

/-! ### Legacy fill-blank converter, from convertLegacyFillBlank -/

/-- String.split on commas: at least one segment, empty segments kept. -/
def splitOnComma : List Char → List (List Char)
  | [] => [[]]
  | ',' :: rest => [] :: splitOnComma rest
  | c :: rest =>
    match splitOnComma rest with
    | [] => [[c]]
    | seg :: segs => (c :: seg) :: segs

/-- String.trim: strip leading and trailing whitespace. -/
def trimChars (s : List Char) : List Char :=
  ((s.dropWhile isJsSpace).reverse.dropWhile isJsSpace).reverse

/-- The global triple-underscore replacement of convertLegacyFillBlank:
each match consumes the next answer via shift(), falling back to the
literal blank when the queue is exhausted or yields a falsy empty string. -/
def replaceBlanks : List Char → List (List Char) → List Char
  | '_' :: '_' :: '_' :: rest, ans =>
    (match ans with
     | [] => "___".data
     | a :: _ => if a.isEmpty then "___".data else a) ++ replaceBlanks rest ans.tail
  | c :: rest, ans => c :: replaceBlanks rest ans
  | [], _ => []

/-- A legacy fill-blank payload. -/
structure LegacyFillBlank : Type where
  id : List Char
  question : List Char
  correctAnswer : List Char
  clueEmoji : Option (List Char)
  explanation : Option (List Char)

/-- convertLegacyFillBlank.  The source assigns the `answers` array by
reference to correct_tokens and then drains it with `answers.shift()` inside
the replacement callback building correct_answer_string; the final observed
value of correct_tokens is therefore the answers list with one element
removed per replaced match, modelled by dropping the number of matches.
word_bank_tokens is a spread copy taken before the draining. -/
def convertLegacyFillBlank (legacy : LegacyFillBlank) : FillBlanksQuestion :=
  let answers := (splitOnComma legacy.correctAnswer).map trimChars
  let wordBank := answers
  { id := legacy.id
    sentence_template := legacy.question
    blanks := []
    display_tokens := []
    correct_tokens := answers.drop (countBlanks legacy.question)
    word_bank_tokens := wordBank
    correct_answer_string := replaceBlanks legacy.question answers
    explanation_vi := legacy.explanation
    clueEmoji := legacy.clueEmoji }

/-! ## Theorems -/

/-! ### C8: RNG range -/

theorem mulberry32Round_snd_lt (s : Nat) : (mulberry32Round s).2 < U32 := by
  simp only [mulberry32Round]
  exact Nat.mod_lt _ (by norm_num [U32])

/-- C8: for every integer seed (including 0 and negative values) and every
invocation index n, the value returned by the generator created by
createSeededRandom lies in the half-open interval [0, 1). -/
theorem claim_C8 (seed : Int) (n : Nat) :
    0 ≤ createSeededRandomNth seed n ∧ createSeededRandomNth seed n < 1 := by
  constructor
  · unfold createSeededRandomNth
    positivity
  · unfold createSeededRandomNth
    rw [div_lt_one (by norm_num)]
    have h : createSeededRandomNum seed n < 4294967296 :=
      mulberry32Round_snd_lt (mb32State seed n)
    exact_mod_cast h

/-! ### C1: determinism of seed derivation and guarded shuffle -/

/-- C1 counterexample: with an explicitly supplied empty sessionId string,
the falsy-string fallback of generateSeed substitutes the wall clock, so two
calls with the same questionId and sessionId disagree. -/
theorem claim_C1_counterexample :
    generateSeed "q".data (some []) 0 ≠ generateSeed "q".data (some []) 1 := by decide

/-- C1 (amended to nonempty sessionIds): for every questionId and every
explicitly supplied nonempty sessionId, generateSeed returns the same
nonnegative integer regardless of the wall clock, and shuffleWithRecheck of
any token array under the derived seed is element-wise identical across
runs. -/
theorem claim_C1 (questionId sessionId : List Char) (now now' : Nat)
    (tokens : List (List Char)) (h : sessionId ≠ []) :
    generateSeed questionId (some sessionId) now
      = generateSeed questionId (some sessionId) now'
    ∧ 0 ≤ generateSeed questionId (some sessionId) now
    ∧ shuffleWithRecheck tokens (generateSeed questionId (some sessionId) now) 10
      = shuffleWithRecheck tokens (generateSeed questionId (some sessionId) now') 10 := by
  have hiseq : sessionId.isEmpty = false := by
    cases sessionId with
    | nil => exact absurd rfl h
    | cons a t => rfl
  have hgen : ∀ m : Nat, generateSeed questionId (some sessionId) m
      = ((hashString (questionId ++ '-' :: sessionId)).natAbs : Int) := by
    intro m
    simp [generateSeed, hiseq]
  refine ⟨?_, ?_, ?_⟩
  · rw [hgen, hgen]
  · rw [hgen]; exact Int.natCast_nonneg _
  · rw [hgen, hgen]

/-- C1 witness: the amended determinism claim at a concrete question,
session and token list. -/
theorem claim_C1_witness :
    generateSeed "q".data (some "s1".data) 0 = generateSeed "q".data (some "s1".data) 1
    ∧ 0 ≤ generateSeed "q".data (some "s1".data) 0
    ∧ shuffleWithRecheck [['a']] (generateSeed "q".data (some "s1".data) 0) 10
      = shuffleWithRecheck [['a']] (generateSeed "q".data (some "s1".data) 1) 10 :=
  claim_C1 "q".data "s1".data 0 1 [['a']] (by decide)

/-! ### C2: the shuffle is a permutation -/

theorem cons_set_perm {α : Type} (t : List α) :
    ∀ (k : Nat) (a y : α), t[k]? = some y → (a :: t).Perm (y :: t.set k a) := by
  induction t with
  | nil => intro k a y h; simp at h
  | cons b t ih =>
    intro k a y h
    cases k with
    | zero =>
      simp at h
      subst h
      exact List.Perm.swap b a t
    | succ k =>
      simp at h
      exact ((List.Perm.swap b a t).trans ((ih k a y h).cons b)).trans
        (List.Perm.swap y b (t.set k a))

theorem set_set_perm {α : Type} :
    ∀ (l : List α) (i j : Nat) (x y : α),
      l[i]? = some x → l[j]? = some y → ((l.set i y).set j x).Perm l := by
  intro l
  induction l with
  | nil => intro i j x y hi _; simp at hi
  | cons a t ih =>
    intro i j x y hi hj
    cases i with
    | zero =>
      simp at hi
      subst hi
      cases j with
      | zero =>
        simp at hj
        subst hj
        exact List.Perm.refl _
      | succ k =>
        simp at hj
        exact (cons_set_perm t k a y hj).symm
    | succ m =>
      cases j with
      | zero =>
        simp at hj
        subst hj
        simp at hi
        exact (cons_set_perm t m a x hi).symm
      | succ k =>
        simp at hi hj
        exact (ih m k x y hi hj).cons a

theorem listSwap_perm {α : Type} (l : List α) (i j : Nat) : (listSwap l i j).Perm l := by
  rcases hx : l[i]? with _ | x
  · simp [listSwap, hx]
  · rcases hy : l[j]? with _ | y
    · simp [listSwap, hx, hy]
    · simp only [listSwap, hx, hy]
      exact set_set_perm l i j x y hx hy

theorem fyAux_perm {α : Type} : ∀ (i : Nat) (l : List α) (s : Nat), (fyAux l s i).Perm l := by
  intro i
  induction i with
  | zero => intro l s; exact List.Perm.refl l
  | succ i ih =>
    intro l s
    simp only [fyAux]
    exact (ih _ _).trans (listSwap_perm l (i + 1) _)

/-- C2: for every input array and every integer seed, deterministicShuffle
returns a permutation of the input: the same multiset of elements (stated
as List.Perm) and in particular the same length. -/
theorem claim_C2 {α : Type} (array : List α) (seed : Int) :
    (deterministicShuffle array seed).Perm array
    ∧ (deterministicShuffle array seed).length = array.length := by
  have h := fyAux_perm (array.length - 1) array (toU32 seed)
  exact ⟨h, h.length_eq⟩

/-! ### C7: the recheck loop stops within maxAttempts -/

theorem recheckLoop_attempts_le {α : Type} [DecidableEq α] (array : List α) (seed : Int)
    (maxA : Nat) :
    ∀ (k : Nat) (result : List α) (attempts : Nat), maxA - attempts ≤ k → attempts ≤ maxA →
      (shuffleWithRecheckLoop array seed maxA result attempts).2 ≤ maxA := by
  intro k
  induction k with
  | zero =>
    intro result attempts hk hle
    rw [shuffleWithRecheckLoop, if_neg]
    · exact hle
    · rintro ⟨_, hlt⟩
      omega
  | succ k ih =>
    intro result attempts hk hle
    rw [shuffleWithRecheckLoop]
    by_cases hc : arraysEqual result array = true ∧ attempts < maxA
    · rw [if_pos hc]
      exact ih _ (attempts + 1) (by omega) (by omega)
    · rw [if_neg hc]
      exact hle

theorem recheckLoop_fixed {α : Type} [DecidableEq α] (array : List α) (seed : Int)
    (maxA : Nat) (hshuf : ∀ s : Int, deterministicShuffle array s = array) :
    ∀ (k attempts : Nat), maxA - attempts ≤ k →
      (shuffleWithRecheckLoop array seed maxA array attempts).1 = array := by
  intro k
  induction k with
  | zero =>
    intro attempts hk
    rw [shuffleWithRecheckLoop, if_neg]
    rintro ⟨_, hlt⟩
    omega
  | succ k ih =>
    intro attempts hk
    rw [shuffleWithRecheckLoop]
    by_cases hc : arraysEqual array array = true ∧ attempts < maxA
    · rw [if_pos hc, hshuf (seed + attempts)]
      exact ih (attempts + 1) (by omega)
    · rw [if_neg hc]

theorem shuffle_short_eq {α : Type} (array : List α) (seed : Int)
    (h : array.length ≤ 1) : deterministicShuffle array seed = array := by
  unfold deterministicShuffle
  have h0 : array.length - 1 = 0 := by omega
  rw [h0]
  rfl

/-- C7: with the default maxAttempts of 10, the recheck loop of
shuffleWithRecheck makes at most 10 shuffle attempts (the final attempt
counter never exceeds 10) and then returns whatever result it has; for an
empty or single-element array it returns an array equal to the input. -/
theorem claim_C7 {α : Type} [DecidableEq α] (array : List α) (seed : Int) :
    (shuffleWithRecheckLoop array seed 10 (deterministicShuffle array seed) 1).2 ≤ 10
    ∧ (array.length ≤ 1 → shuffleWithRecheck array seed 10 = array) := by
  constructor
  · exact recheckLoop_attempts_le array seed 10 10 _ 1 (by omega) (by omega)
  · intro h
    unfold shuffleWithRecheck
    rw [shuffle_short_eq array seed h]
    exact recheckLoop_fixed array seed 10 (fun s => shuffle_short_eq array s h) 10 1 (by omega)

/-- C7 witness: the attempt bound and the identity result on a concrete
single-element array. -/
theorem claim_C7_witness :
    (shuffleWithRecheckLoop ([5] : List Nat) 3 10 (deterministicShuffle [5] 3) 1).2 ≤ 10
    ∧ shuffleWithRecheck ([5] : List Nat) 3 10 = [5] :=
  ⟨(claim_C7 ([5] : List Nat) 3).1, (claim_C7 ([5] : List Nat) 3).2 (by decide)⟩

/-! ### C4: the token comparator -/

/-- C4: compareTokenArrays records in differences exactly the indices below
the longer length at which the normalized tokens (missing tokens read as
empty, case folded unless caseSensitive) disagree, and isCorrect holds iff
differences is empty and the lengths agree; in particular comparing
["A","B"] against ["A","B","C"] is incorrect with a difference at index 2. -/
theorem claim_C4 (u c : List (List Char)) (cs : Bool) :
    (∀ i : Nat, i ∈ (compareTokenArrays u c cs).2 ↔
      (i < max u.length c.length ∧ normTokAt u cs i ≠ normTokAt c cs i))
    ∧ ((compareTokenArrays u c cs).1 = true ↔
      ((compareTokenArrays u c cs).2 = [] ∧ u.length = c.length))
    ∧ ((compareTokenArrays ["A".data, "B".data] ["A".data, "B".data, "C".data] false).1 = false
      ∧ (compareTokenArrays ["A".data, "B".data] ["A".data, "B".data, "C".data] false).2 = [2]) := by
  refine ⟨?_, ?_, by decide⟩
  · intro i
    simp [compareTokenArrays, List.mem_filter, List.mem_range]
  · simp [compareTokenArrays, List.length_eq_zero]

/-! ### C6: a question is valid iff it has no error-severity finding -/

/-- C6: isQuestionValid returns true exactly when validateQuestion returns
zero findings of severity error, so warning findings alone never make it
false. -/
theorem claim_C6 (q : ValidatedQuestion) :
    isQuestionValid q = true ↔
      (validateQuestion q).countP (fun e => decide (e.severity = Severity.error)) = 0 := by
  rw [isQuestionValid, Bool.not_eq_eq_eq_not, Bool.not_true, List.any_eq_false,
    List.countP_eq_zero]

/-! ### C9: the legacy fill-blank converter drains correct_tokens -/

/-- C9: when the legacy template holds at least as many triple-underscore
placeholders as there are comma-separated answers, the converted question
has an empty correct_tokens array (the replacement callback drains the
answers array that correct_tokens aliases) while word_bank_tokens still
holds all the trimmed answers; validateFillBlanksQuestion therefore reports
an error-severity Missing correct_tokens finding and isQuestionValid
returns false. -/
theorem claim_C9 (legacy : LegacyFillBlank)
    (h : (splitOnComma legacy.correctAnswer).length ≤ countBlanks legacy.question) :
    (convertLegacyFillBlank legacy).correct_tokens = []
    ∧ (convertLegacyFillBlank legacy).word_bank_tokens
      = (splitOnComma legacy.correctAnswer).map trimChars
    ∧ (⟨"correct_tokens".data, "Missing correct_tokens".data, Severity.error⟩ : ValidationError)
      ∈ validateFillBlanksQuestion (convertLegacyFillBlank legacy)
    ∧ isQuestionValid (ValidatedQuestion.fill (convertLegacyFillBlank legacy)) = false := by
  have hct : (convertLegacyFillBlank legacy).correct_tokens = [] := by
    simp only [convertLegacyFillBlank]
    apply List.drop_eq_nil_of_le
    rw [List.length_map]
    exact h
  have hmem : (⟨"correct_tokens".data, "Missing correct_tokens".data, Severity.error⟩ :
      ValidationError) ∈ requiredFieldErrorsFB (convertLegacyFillBlank legacy) := by
    unfold requiredFieldErrorsFB
    rw [hct]
    simp
  have hany : (requiredFieldErrorsFB (convertLegacyFillBlank legacy)).any
      (fun e => decide (e.severity = Severity.error)) = true := by
    rw [List.any_eq_true]
    exact ⟨_, hmem, by simp⟩
  have hval : validateFillBlanksQuestion (convertLegacyFillBlank legacy)
      = requiredFieldErrorsFB (convertLegacyFillBlank legacy) := by
    simp only [validateFillBlanksQuestion]
    rw [if_pos hany]
  refine ⟨hct, rfl, ?_, ?_⟩
  · rw [hval]; exact hmem
  · simp only [isQuestionValid, validateQuestion, hval, hany, Bool.not_true]

/-- C9 witness at a concrete one-blank legacy question with one answer. -/
theorem claim_C9_witness :
    (convertLegacyFillBlank
      ⟨"q1".data, "She ___ to school.".data, "goes".data, none, none⟩).correct_tokens = []
    ∧ (convertLegacyFillBlank
      ⟨"q1".data, "She ___ to school.".data, "goes".data, none, none⟩).word_bank_tokens
      = (splitOnComma "goes".data).map trimChars
    ∧ (⟨"correct_tokens".data, "Missing correct_tokens".data, Severity.error⟩ : ValidationError)
      ∈ validateFillBlanksQuestion (convertLegacyFillBlank
        ⟨"q1".data, "She ___ to school.".data, "goes".data, none, none⟩)
    ∧ isQuestionValid (ValidatedQuestion.fill (convertLegacyFillBlank
        ⟨"q1".data, "She ___ to school.".data, "goes".data, none, none⟩)) = false :=
  claim_C9 ⟨"q1".data, "She ___ to school.".data, "goes".data, none, none⟩ (by decide)

/-! ### C5: the validator token-multiset check -/

theorem digitCh_ne_dquote (d : Nat) (h : d < 10) : digitCh d ≠ dquote := by
  interval_cases d <;> decide

theorem natToCharsFuel_no_dquote :
    ∀ (fuel n : Nat), dquote ∉ natToCharsFuel n fuel := by
  intro fuel
  induction fuel with
  | zero => intro n h; simp [natToCharsFuel] at h
  | succ fuel ih =>
    intro n h
    rw [natToCharsFuel] at h
    by_cases h10 : n < 10
    · rw [if_pos h10, List.mem_singleton] at h
      exact digitCh_ne_dquote n h10 h.symm
    · rw [if_neg h10, List.mem_append, List.mem_singleton] at h
      rcases h with h1 | h2
      · exact ih _ h1
      · exact digitCh_ne_dquote (n % 10) (Nat.mod_lt n (by norm_num)) h2.symm

theorem natToChars_no_dquote (n : Nat) : dquote ∉ natToChars n :=
  natToCharsFuel_no_dquote _ _

theorem quote_anchor :
    ∀ (a b x y : List Char), dquote ∉ a → dquote ∉ b →
      a ++ dquote :: x = b ++ dquote :: y → a = b ∧ x = y := by
  intro a
  induction a with
  | nil =>
    intro b x y _ hb heq
    cases b with
    | nil => simpa using heq
    | cons d b' =>
      simp only [List.nil_append, List.cons_append, List.cons.injEq] at heq
      have : dquote ∈ d :: b' := by
        rw [heq.1]
        exact List.mem_cons_self _ _
      exact absurd this hb
  | cons c a' ih =>
    intro b x y ha hb heq
    cases b with
    | nil =>
      simp only [List.nil_append, List.cons_append, List.cons.injEq] at heq
      have : dquote ∈ c :: a' := by
        rw [← heq.1]
        exact List.mem_cons_self _ _
      exact absurd this ha
    | cons d b' =>
      simp only [List.cons_append, List.cons.injEq] at heq
      obtain ⟨hcd, heq'⟩ := heq
      have ha' : dquote ∉ a' := fun hm => ha (List.mem_cons_of_mem c hm)
      have hb' : dquote ∉ b' := fun hm => hb (List.mem_cons_of_mem d hm)
      obtain ⟨h1, h2⟩ := ih b' x y ha' hb' heq'
      exact ⟨by rw [hcd, h1], h2⟩

theorem rest_no_dquote (c a : Nat) :
    dquote ∉ (" required ".data ++ (natToChars c ++ ("x but only ".data ++
      (natToChars a ++ "x in word bank".data)))) := by
  intro h
  rcases List.mem_append.mp h with h | h
  · exact absurd h (by decide)
  rcases List.mem_append.mp h with h | h
  · exact natToChars_no_dquote c h
  rcases List.mem_append.mp h with h | h
  · exact absurd h (by decide)
  rcases List.mem_append.mp h with h | h
  · exact natToChars_no_dquote a h
  · exact absurd h (by decide)

theorem integrityMsg_normal (key : List Char) (c a : Nat) :
    integrityMsg key c a
      = ("Token ".data ++ [dquote]) ++ (key ++ dquote :: (" required ".data ++
        (natToChars c ++ ("x but only ".data ++ (natToChars a ++ "x in word bank".data))))) := by
  simp [integrityMsg, List.append_assoc]

theorem integrityMsg_token_inj {k1 k2 : List Char} {c1 a1 c2 a2 : Nat}
    (h : integrityMsg k1 c1 a1 = integrityMsg k2 c2 a2) : k1 = k2 := by
  rw [integrityMsg_normal, integrityMsg_normal] at h
  have h2 := List.append_cancel_left h
  have h3 := congrArg List.reverse h2
  rw [List.reverse_append, List.reverse_append, List.reverse_cons, List.reverse_cons,
    List.append_assoc, List.append_assoc, List.singleton_append, List.singleton_append] at h3
  have hr1 : dquote ∉ (" required ".data ++ (natToChars c1 ++ ("x but only ".data ++
      (natToChars a1 ++ "x in word bank".data)))).reverse := by
    rw [List.mem_reverse]
    exact rest_no_dquote c1 a1
  have hr2 : dquote ∉ (" required ".data ++ (natToChars c2 ++ ("x but only ".data ++
      (natToChars a2 ++ "x in word bank".data)))).reverse := by
    rw [List.mem_reverse]
    exact rest_no_dquote c2 a2
  have h4 := (quote_anchor _ _ _ _ hr1 hr2 h3).2
  exact List.reverse_injective h4

theorem integrityError_ne_countMismatchError (key : List Char) (c a n m : Nat) :
    integrityError key c a ≠ countMismatchError n m := by
  intro h
  have hm : integrityMsg key c a
      = "Token count mismatch: correct=".data ++ natToChars n ++ ", bank=".data ++ natToChars m :=
    congrArg ValidationError.message h
  have h6l : (integrityMsg key c a)[6]? = some dquote := by
    rw [integrityMsg_normal]
    rw [List.getElem?_append_left (by decide)]
    decide
  have h6r : ("Token count mismatch: correct=".data ++ natToChars n ++ ", bank=".data ++
      natToChars m)[6]? = some 'c' := by
    rw [List.append_assoc, List.append_assoc, List.getElem?_append_left (by decide)]
    decide
  rw [hm, h6r] at h6l
  exact absurd h6l (by decide)

theorem mem_insertKeyFold :
    ∀ (l acc : List (List Char)) (k : List Char),
      k ∈ l.foldl insertKey acc ↔ k ∈ acc ∨ k ∈ l := by
  intro l
  induction l with
  | nil => intro acc k; simp
  | cons a l ih =>
    intro acc k
    rw [List.foldl_cons, ih]
    unfold insertKey
    by_cases hmem : a ∈ acc
    · rw [if_pos hmem]
      simp only [List.mem_cons]
      constructor
      · rintro (h | h)
        · exact Or.inl h
        · exact Or.inr (Or.inr h)
      · rintro (h | h | h)
        · exact Or.inl h
        · exact Or.inl (h ▸ hmem)
        · exact Or.inr h
    · rw [if_neg hmem]
      simp only [List.mem_append, List.mem_singleton, List.mem_cons]
      tauto

theorem mem_mapKeys (ct : List (List Char)) (k : List Char) :
    k ∈ mapKeys ct ↔ 0 < lcCount ct k := by
  unfold mapKeys lcCount
  rw [mem_insertKeyFold]
  simp [List.countP_pos_iff, List.mem_map, eq_comm]

theorem mem_validateTokenIntegrity {ct wb : List (List Char)} {e : ValidationError} :
    e ∈ validateTokenIntegrity ct wb ↔
      ∃ key, key ∈ mapKeys ct ∧ lcCount wb key < lcCount ct key
        ∧ e = integrityError key (lcCount ct key) (lcCount wb key) := by
  unfold validateTokenIntegrity
  rw [List.mem_filterMap]
  constructor
  · rintro ⟨key, hk, hf⟩
    by_cases hlt : lcCount wb key < lcCount ct key
    · rw [if_pos hlt] at hf
      exact ⟨key, hk, hlt, (Option.some_inj.mp hf).symm⟩
    · rw [if_neg hlt] at hf
      simp at hf
  · rintro ⟨key, hk, hlt, rfl⟩
    exact ⟨key, hk, by rw [if_pos hlt]⟩

theorem mem_validateJoinedAnswer_field {ct : List (List Char)} {s : List Char}
    {e : ValidationError} (h : e ∈ validateJoinedAnswer ct s) :
    e.field = "correct_answer_string".data := by
  simp only [validateJoinedAnswer] at h
  split at h
  · rw [List.mem_singleton] at h
    subst h
    rfl
  · simp at h

theorem mem_validateGrammarBasics_field {s : List Char} {e : ValidationError}
    (h : e ∈ validateGrammarBasics s) : e.field = "correct_answer_string".data := by
  unfold validateGrammarBasics at h
  rcases List.mem_append.mp h with h | h
  · rcases List.mem_append.mp h with h | h
    · rcases List.mem_append.mp h with h | h <;>
        { split at h
          · rw [List.mem_singleton] at h; subst h; rfl
          · simp at h }
    · split at h
      · rw [List.mem_singleton] at h; subst h; rfl
      · simp at h
  · split at h
    · rw [List.mem_singleton] at h; subst h; rfl
    · simp at h

/-- C5: for an arrange-words question that passes the required-field
checks, validateArrangeWordsQuestion contains the error-severity
word_bank_tokens finding naming a token t (with its required and available
case-insensitive counts) precisely when the case-insensitive count of t in
the word bank falls short of its count in the correct tokens. -/
theorem claim_C5 (q : ArrangeWordsQuestion) (t : List Char)
    (hreq : requiredFieldErrorsAW q = []) :
    (integrityError t (lcCount q.correct_tokens t) (lcCount q.word_bank_tokens t)
      ∈ validateArrangeWordsQuestion q)
    ↔ lcCount q.word_bank_tokens t < lcCount q.correct_tokens t := by
  have hany : (requiredFieldErrorsAW q).any (fun e => decide (e.severity = Severity.error))
      = false := by rw [hreq]; rfl
  have hval : validateArrangeWordsQuestion q
      = requiredFieldErrorsAW q ++ validateTokenIntegrity q.correct_tokens q.word_bank_tokens
        ++ validateJoinedAnswer q.correct_tokens q.correct_answer_string
        ++ validateGrammarBasics q.correct_answer_string
        ++ (if q.correct_tokens.length ≠ q.word_bank_tokens.length then
          [countMismatchError q.correct_tokens.length q.word_bank_tokens.length] else []) := by
    simp only [validateArrangeWordsQuestion, hany]
    rw [if_neg (by simp)]
  rw [hval, hreq, List.nil_append]
  constructor
  · intro hmem
    rcases List.mem_append.mp hmem with hmem | hmem
    · rcases List.mem_append.mp hmem with hmem | hmem
      · rcases List.mem_append.mp hmem with hmem | hmem
        · obtain ⟨key, _, hlt, heq⟩ := mem_validateTokenIntegrity.mp hmem
          have hmsg := congrArg ValidationError.message heq
          have hk := integrityMsg_token_inj hmsg
          rw [← hk] at hlt
          exact hlt
        · have hfield := mem_validateJoinedAnswer_field hmem
          have hcontra : ("word_bank_tokens".data : List Char) = "correct_answer_string".data :=
            hfield
          exact absurd hcontra (by decide)
      · have hfield := mem_validateGrammarBasics_field hmem
        have hcontra : ("word_bank_tokens".data : List Char) = "correct_answer_string".data :=
          hfield
        exact absurd hcontra (by decide)
    · split at hmem
      · rw [List.mem_singleton] at hmem
        exact absurd hmem (integrityError_ne_countMismatchError _ _ _ _ _)
      · simp at hmem
  · intro hlt
    have hkey : t ∈ mapKeys q.correct_tokens := by
      rw [mem_mapKeys]
      omega
    have hi : integrityError t (lcCount q.correct_tokens t) (lcCount q.word_bank_tokens t)
        ∈ validateTokenIntegrity q.correct_tokens q.word_bank_tokens :=
      mem_validateTokenIntegrity.mpr ⟨t, hkey, hlt, rfl⟩
    exact List.mem_append.mpr (Or.inl (List.mem_append.mpr (Or.inl
      (List.mem_append.mpr (Or.inl hi)))))

/-- C5 witness: the example question whose word bank is missing one copy of
the token a. -/
theorem claim_C5_witness :
    integrityError "a".data
        (lcCount ["A".data, "tiger".data, "is".data, "stronger".data, "than".data,
          "a".data, "lion".data, ".".data] "a".data)
        (lcCount ["A".data, "tiger".data, "is".data, "stronger".data, "than".data,
          "lion".data, ".".data] "a".data)
      ∈ validateArrangeWordsQuestion
        ⟨"q1".data, [],
          ["A".data, "tiger".data, "is".data, "stronger".data, "than".data,
            "a".data, "lion".data, ".".data],
          ["A".data, "tiger".data, "is".data, "stronger".data, "than".data,
            "lion".data, ".".data],
          "A tiger is stronger than a lion.".data, none⟩ :=
  (claim_C5
    ⟨"q1".data, [],
      ["A".data, "tiger".data, "is".data, "stronger".data, "than".data,
        "a".data, "lion".data, ".".data],
      ["A".data, "tiger".data, "is".data, "stronger".data, "than".data,
        "lion".data, ".".data],
      "A tiger is stronger than a lion.".data, none⟩
    "a".data (by decide)).mpr (by decide)

/-! ### C3: tokenize then join then tokenize is tokenize -/

theorem isWordChar_not_space {c : Char} (h : isWordChar c = true) : isJsSpace c = false := by
  cases hs : isJsSpace c
  · rfl
  · exfalso
    simp only [isJsSpace, Bool.or_eq_true, decide_eq_true_eq] at hs
    rcases hs with ((((h1 | h1) | h1) | h1) | h1) | h1 <;> subst h1 <;>
      exact absurd h (by decide)

theorem isWordChar_not_punct {c : Char} (h : isWordChar c = true) : isPunctChar c = false := by
  cases hs : isPunctChar c
  · rfl
  · exfalso
    simp only [isPunctChar, Bool.or_eq_true, decide_eq_true_eq] at hs
    rcases hs with ((((h1 | h1) | h1) | h1) | h1) | h1 <;> subst h1 <;>
      exact absurd h (by decide)

theorem isPunctChar_not_space {c : Char} (h : isPunctChar c = true) : isJsSpace c = false := by
  simp only [isPunctChar, Bool.or_eq_true, decide_eq_true_eq] at h
  rcases h with ((((h | h) | h) | h) | h) | h <;> subst h <;> decide

theorem isWordChar_ne_apostrophe {c : Char} (h : isWordChar c = true) : c ≠ apostrophe := by
  intro he
  subst he
  exact absurd h (by decide)

/-- A word token: nonempty and made of letters or digits only. -/
def IsWordTok (t : List Char) : Prop := t ≠ [] ∧ ∀ c ∈ t, isWordChar c = true

/-- A punctuation token: a single tokenizer punctuation character. -/
def IsPunctTok (t : List Char) : Prop := ∃ p, isPunctChar p = true ∧ t = [p]

/-- A token producible by the tokenizer from the restricted alphabet. -/
def GoodTok (t : List Char) : Prop := IsWordTok t ∨ IsPunctTok t

theorem IsWordTok.chars {t : List Char} (h : IsWordTok t) :
    ∀ c ∈ t, isJsSpace c = false ∧ isPunctChar c = false :=
  fun c hc => ⟨isWordChar_not_space (h.2 c hc), isWordChar_not_punct (h.2 c hc)⟩

theorem ne_nil_isEmpty_false {α : Type} {l : List α} (h : l ≠ []) : l.isEmpty = false := by
  cases l with
  | nil => exact absurd rfl h
  | cons a t => rfl

theorem parse_tokens_good :
    ∀ (s current : List Char), (∀ c ∈ s, allowedChar c = true) →
      (∀ c ∈ current, isWordChar c = true) →
      ∀ t ∈ parseIntoTokensAux s current, GoodTok t := by
  intro s
  induction s with
  | nil =>
    intro current _ hcur t ht
    rw [parseIntoTokensAux] at ht
    by_cases hemp : current.isEmpty
    · rw [if_pos hemp] at ht
      simp at ht
    · rw [if_neg hemp] at ht
      rw [List.mem_singleton] at ht
      subst ht
      refine Or.inl ⟨?_, hcur⟩
      intro h
      subst h
      exact hemp rfl
  | cons c cs ih =>
    intro current hall hcur t ht
    have hc := hall c (List.mem_cons_self _ _)
    have hall' : ∀ x ∈ cs, allowedChar x = true :=
      fun x hx => hall x (List.mem_cons_of_mem _ hx)
    rw [parseIntoTokensAux] at ht
    by_cases hs : isJsSpace c
    · rw [if_pos hs] at ht
      rcases List.mem_append.mp ht with h1 | h1
      · by_cases hemp : current.isEmpty
        · rw [if_pos hemp] at h1
          simp at h1
        · rw [if_neg hemp] at h1
          rw [List.mem_singleton] at h1
          subst h1
          exact Or.inl ⟨fun h => hemp (by rw [h]; rfl), hcur⟩
      · exact ih [] hall' (by simp) t h1
    · rw [if_neg hs] at ht
      by_cases hp : isPunctChar c
      · rw [if_pos hp] at ht
        rcases List.mem_append.mp ht with h1 | h1
        · by_cases hemp : current.isEmpty
          · rw [if_pos hemp] at h1
            simp at h1
          · rw [if_neg hemp] at h1
            rw [List.mem_singleton] at h1
            subst h1
            exact Or.inl ⟨fun h => hemp (by rw [h]; rfl), hcur⟩
        · rcases List.mem_cons.mp h1 with h2 | h2
          · subst h2
            exact Or.inr ⟨c, hp, rfl⟩
          · exact ih [] hall' (by simp) t h2
      · rw [if_neg hp] at ht
        have hw : isWordChar c = true := by
          simp only [allowedChar, Bool.or_eq_true, decide_eq_true_eq] at hc
          rcases hc with (h1 | h1) | h1
          · exact h1
          · subst h1
            exact absurd (by decide) hs
          · exact absurd h1 hp
        refine ih (current ++ [c]) hall' ?_ t ht
        intro x hx
        rcases List.mem_append.mp hx with h1 | h1
        · exact hcur x h1
        · rw [List.mem_singleton] at h1
          subst h1
          exact hw

theorem parse_absorb :
    ∀ (u r current : List Char),
      (∀ c ∈ u, isJsSpace c = false ∧ isPunctChar c = false) →
      parseIntoTokensAux (u ++ r) current = parseIntoTokensAux r (current ++ u) := by
  intro u
  induction u with
  | nil => intro r current _; simp
  | cons c u' ih =>
    intro r current hall
    have hc := hall c (List.mem_cons_self _ _)
    rw [List.cons_append, parseIntoTokensAux, if_neg (by rw [hc.1]; simp),
      if_neg (by rw [hc.2]; simp),
      ih r (current ++ [c]) (fun x hx => hall x (List.mem_cons_of_mem _ hx)),
      List.append_assoc, List.singleton_append]

theorem goodTok_not_noSpaceAfter {t : List Char} (h : GoodTok t) : t ∉ noSpaceAfterList := by
  intro hmem
  rcases h with ⟨hne, hall⟩ | ⟨p, hp, rfl⟩
  · simp only [noSpaceAfterList, List.mem_cons, List.mem_singleton,
      List.not_mem_nil, or_false] at hmem
    rcases hmem with h1 | h1 | h1 <;> subst h1 <;>
      exact absurd (hall _ (List.mem_cons_self _ _)) (by decide)
  · simp only [noSpaceAfterList, List.mem_cons, List.mem_singleton, List.not_mem_nil,
      or_false, List.cons.injEq, and_true] at hmem
    rcases hmem with h1 | h1 | h1 <;> subst h1 <;> exact absurd hp (by decide)

theorem wordTok_not_noSpaceBefore {u : List Char} (h : IsWordTok u) :
    u ∉ noSpaceBeforeList := by
  intro hmem
  obtain ⟨hne, hall⟩ := h
  simp only [noSpaceBeforeList, List.mem_cons, List.mem_singleton,
    List.not_mem_nil, or_false] at hmem
  rcases hmem with h1 | h1 | h1 | h1 | h1 | h1 | h1 | h1 | h1 <;> subst h1 <;>
    exact absurd (hall _ (List.mem_cons_self _ _)) (by decide)

theorem wordTok_startsWithApostrophe_false {u : List Char} (h : IsWordTok u) :
    startsWithApostrophe u = false := by
  obtain ⟨hne, hall⟩ := h
  cases u with
  | nil => rfl
  | cons c rest =>
    simp only [startsWithApostrophe]
    exact decide_eq_false (isWordChar_ne_apostrophe (hall c (List.mem_cons_self _ _)))

theorem punct_mem_noSpaceBefore {p : Char} (hp : isPunctChar p = true) :
    [p] ∈ noSpaceBeforeList := by
  simp only [isPunctChar, Bool.or_eq_true, decide_eq_true_eq] at hp
  rcases hp with ((((h | h) | h) | h) | h) | h <;> subst h <;> decide

theorem parse_joinAux :
    ∀ (ts : List (List Char)) (prev w : List Char),
      (∀ t ∈ ts, GoodTok t) → GoodTok prev →
      parseIntoTokensAux (joinAux prev ts) w = (if w.isEmpty then [] else [w]) ++ ts := by
  intro ts
  induction ts with
  | nil =>
    intro prev w _ _
    simp [joinAux, parseIntoTokensAux]
  | cons cur rest ih =>
    intro prev w hall hprev
    have hcur := hall cur (List.mem_cons_self _ _)
    have hrest : ∀ t ∈ rest, GoodTok t := fun t ht => hall t (List.mem_cons_of_mem _ ht)
    rcases hcur with hword | ⟨p, hp, rfl⟩
    · have hb : decide (cur ∈ noSpaceBeforeList) = false :=
        decide_eq_false (wordTok_not_noSpaceBefore hword)
      have hsw : startsWithApostrophe cur = false := wordTok_startsWithApostrophe_false hword
      have hafter : decide (prev ∈ noSpaceAfterList) = false :=
        decide_eq_false (goodTok_not_noSpaceAfter hprev)
      simp only [joinAux]
      rw [if_neg (by rw [hb, hsw, hafter]; simp)]
      rw [List.cons_append, parseIntoTokensAux, if_pos (by decide : isJsSpace ' ' = true)]
      rw [parse_absorb cur (joinAux cur rest) [] hword.chars, List.nil_append]
      rw [ih cur cur hrest (Or.inl hword)]
      rw [ne_nil_isEmpty_false hword.1]
      simp
    · have hb : decide ([p] ∈ noSpaceBeforeList) = true :=
        decide_eq_true (punct_mem_noSpaceBefore hp)
      simp only [joinAux]
      rw [if_pos (by rw [hb]; simp)]
      rw [List.singleton_append, parseIntoTokensAux,
        if_neg (by rw [isPunctChar_not_space hp]; simp), if_pos hp]
      rw [ih [p] [] hrest (Or.inr ⟨p, hp, rfl⟩)]
      simp

theorem parse_join_of_good (ts : List (List Char)) (hgood : ∀ t ∈ ts, GoodTok t) :
    parseIntoTokensAux (joinTokensWithSpacing ts) [] = ts := by
  cases ts with
  | nil => rfl
  | cons t rest =>
    have ht := hgood t (List.mem_cons_self _ _)
    have hrest : ∀ x ∈ rest, GoodTok x := fun x hx => hgood x (List.mem_cons_of_mem _ hx)
    rcases ht with hword | ⟨p, hp, rfl⟩
    · simp only [joinTokensWithSpacing]
      rw [parse_absorb t (joinAux t rest) [] hword.chars, List.nil_append]
      rw [parse_joinAux rest t t hrest (Or.inl hword)]
      rw [ne_nil_isEmpty_false hword.1]
      simp
    · simp only [joinTokensWithSpacing]
      rw [List.singleton_append, parseIntoTokensAux,
        if_neg (by rw [isPunctChar_not_space hp]; simp), if_pos hp]
      rw [parse_joinAux rest [p] [] hrest (Or.inr ⟨p, hp, rfl⟩)]
      simp

/-- C3: for every sentence over letters, digits, spaces and the supported
punctuation set, joining its token sequence and tokenizing again recovers
exactly the same words and punctuation marks in the same order: the
round-trip changes the sentence only up to whitespace normalization. -/
theorem claim_C3 (s : List Char) (h : ∀ c ∈ s, allowedChar c = true) :
    parseIntoTokens (joinTokensWithSpacing (parseIntoTokens s)) = parseIntoTokens s := by
  unfold parseIntoTokens
  exact parse_join_of_good _ (parse_tokens_good s [] h (by simp))

/-- C3 witness: the round trip on the concrete sentence Hello, world!. -/
theorem claim_C3_witness :
    parseIntoTokens (joinTokensWithSpacing (parseIntoTokens "Hello, world!".data))
      = parseIntoTokens "Hello, world!".data :=
  claim_C3 "Hello, world!".data (by decide)

/-! ### C10: joined tokenizer output has no whitespace before punctuation -/

/-- A token shape the tokenizer guarantees on arbitrary input: nonempty
with no whitespace and no tokenizer punctuation characters. -/
def IsLooseWordTok (t : List Char) : Prop :=
  t ≠ [] ∧ ∀ c ∈ t, isJsSpace c = false ∧ isPunctChar c = false

/-- Any token the tokenizer can produce on arbitrary input. -/
def LooseTok (t : List Char) : Prop := IsLooseWordTok t ∨ IsPunctTok t

theorem parse_tokens_loose :
    ∀ (s current : List Char),
      (∀ c ∈ current, isJsSpace c = false ∧ isPunctChar c = false) →
      ∀ t ∈ parseIntoTokensAux s current, LooseTok t := by
  intro s
  induction s with
  | nil =>
    intro current hcur t ht
    rw [parseIntoTokensAux] at ht
    by_cases hemp : current.isEmpty
    · rw [if_pos hemp] at ht
      simp at ht
    · rw [if_neg hemp] at ht
      rw [List.mem_singleton] at ht
      subst ht
      refine Or.inl ⟨?_, hcur⟩
      intro h
      subst h
      exact hemp rfl
  | cons c cs ih =>
    intro current hcur t ht
    rw [parseIntoTokensAux] at ht
    by_cases hs : isJsSpace c
    · rw [if_pos hs] at ht
      rcases List.mem_append.mp ht with h1 | h1
      · by_cases hemp : current.isEmpty
        · rw [if_pos hemp] at h1
          simp at h1
        · rw [if_neg hemp] at h1
          rw [List.mem_singleton] at h1
          subst h1
          exact Or.inl ⟨fun h => hemp (by rw [h]; rfl), hcur⟩
      · exact ih [] (by simp) t h1
    · rw [if_neg hs] at ht
      by_cases hp : isPunctChar c
      · rw [if_pos hp] at ht
        rcases List.mem_append.mp ht with h1 | h1
        · by_cases hemp : current.isEmpty
          · rw [if_pos hemp] at h1
            simp at h1
          · rw [if_neg hemp] at h1
            rw [List.mem_singleton] at h1
            subst h1
            exact Or.inl ⟨fun h => hemp (by rw [h]; rfl), hcur⟩
        · rcases List.mem_cons.mp h1 with h2 | h2
          · subst h2
            exact Or.inr ⟨c, hp, rfl⟩
          · exact ih [] (by simp) t h2
      · rw [if_neg hp] at ht
        have hsf : isJsSpace c = false := by revert hs; cases isJsSpace c <;> simp
        have hpf : isPunctChar c = false := by revert hp; cases isPunctChar c <;> simp
        refine ih (current ++ [c]) ?_ t ht
        intro x hx
        rcases List.mem_append.mp hx with h1 | h1
        · exact hcur x h1
        · rw [List.mem_singleton] at h1
          subst h1
          exact ⟨hsf, hpf⟩

theorem looseTok_no_space {t : List Char} (h : LooseTok t) :
    ∀ c ∈ t, isJsSpace c = false := by
  rcases h with ⟨_, hc⟩ | ⟨p, hp, rfl⟩
  · exact fun c hc' => (hc c hc').1
  · intro c hc'
    rw [List.mem_singleton] at hc'
    subst hc'
    exact isPunctChar_not_space hp

/-- Every space in the string is followed by a character that is neither
whitespace nor tokenizer punctuation. -/
def okSpaces : List Char → Bool
  | c :: d :: rest => (!isJsSpace c || (!isJsSpace d && !isPunctChar d)) && okSpaces (d :: rest)
  | _ => true

theorem okSpaces_no_spaceBeforePunct :
    ∀ l : List Char, okSpaces l = true → hasSpaceBeforePunct l = false := by
  intro l
  induction l with
  | nil => intro _; rfl
  | cons c tl ih =>
    cases tl with
    | nil => intro _; rfl
    | cons d rest =>
      intro h
      rw [okSpaces, Bool.and_eq_true] at h
      rw [hasSpaceBeforePunct, ih h.2, Bool.or_false]
      cases hsc : isJsSpace c
      · rw [Bool.false_and]
      · have h1 := h.1
        rw [hsc, Bool.not_true, Bool.false_or, Bool.and_eq_true] at h1
        have h2 := h1.2
        rw [Bool.true_and]
        revert h2
        cases isPunctChar d <;> simp

theorem noSpace_append_okSpaces :
    ∀ (a b : List Char), (∀ c ∈ a, isJsSpace c = false) → okSpaces b = true →
      okSpaces (a ++ b) = true := by
  intro a
  induction a with
  | nil => intro b _ hb; simpa using hb
  | cons c a' ih =>
    intro b ha hb
    have hc := ha c (List.mem_cons_self _ _)
    have hrest := ih b (fun x hx => ha x (List.mem_cons_of_mem _ hx)) hb
    rw [List.cons_append]
    cases hab : a' ++ b with
    | nil => rfl
    | cons d rest =>
      rw [hab] at hrest
      rw [okSpaces, Bool.and_eq_true]
      exact ⟨by rw [hc]; rfl, hrest⟩

theorem joinAux_okSpaces :
    ∀ (ts : List (List Char)) (prev : List Char),
      (∀ t ∈ ts, LooseTok t) → okSpaces (joinAux prev ts) = true := by
  intro ts
  induction ts with
  | nil => intro prev _; rfl
  | cons cur rest ih =>
    intro prev hall
    have hcur := hall cur (List.mem_cons_self _ _)
    have hrest : ∀ t ∈ rest, LooseTok t := fun t ht => hall t (List.mem_cons_of_mem _ ht)
    simp only [joinAux]
    split
    · exact noSpace_append_okSpaces cur _ (looseTok_no_space hcur) (ih cur hrest)
    · next hcond =>
      have hword : IsLooseWordTok cur := by
        rcases hcur with h | ⟨p, hp, rfl⟩
        · exact h
        · exfalso
          apply hcond
          rw [decide_eq_true (punct_mem_noSpaceBefore hp)]
          rfl
      obtain ⟨hne, hchars⟩ := hword
      cases cur with
      | nil => exact absurd rfl hne
      | cons d cs =>
        have hd := hchars d (List.mem_cons_self _ _)
        rw [List.cons_append, List.cons_append, okSpaces, Bool.and_eq_true]
        constructor
        · rw [hd.1, hd.2]
          rfl
        · rw [← List.cons_append]
          exact noSpace_append_okSpaces (d :: cs) _ (fun x hx => (hchars x hx).1)
            (ih (d :: cs) hrest)

theorem join_okSpaces (ts : List (List Char)) (h : ∀ t ∈ ts, LooseTok t) :
    okSpaces (joinTokensWithSpacing ts) = true := by
  cases ts with
  | nil => rfl
  | cons t rest =>
    simp only [joinTokensWithSpacing]
    exact noSpace_append_okSpaces t _ (looseTok_no_space (h t (List.mem_cons_self _ _)))
      (joinAux_okSpaces rest t (fun x hx => h x (List.mem_cons_of_mem _ hx)))

/-- C10: for every input string, joining the tokenizer output yields a
string with no whitespace character immediately before a punctuation mark,
so validateGrammarBasics never emits its Space before punctuation detected
finding on such a string. -/
theorem claim_C10 (s : List Char) :
    hasSpaceBeforePunct (joinTokensWithSpacing (parseIntoTokens s)) = false
    ∧ (validateGrammarBasics (joinTokensWithSpacing (parseIntoTokens s))).countP
        (fun e => decide (e.message = spaceBeforePunctMsg)) = 0 := by
  have hok : okSpaces (joinTokensWithSpacing (parseIntoTokens s)) = true :=
    join_okSpaces _ (parse_tokens_loose s [] (by simp))
  have hno : hasSpaceBeforePunct (joinTokensWithSpacing (parseIntoTokens s)) = false :=
    okSpaces_no_spaceBeforePunct _ hok
  refine ⟨hno, ?_⟩
  unfold validateGrammarBasics
  rw [hno]
  split_ifs <;> simp_all <;> decide

end EnglishCore
